import Mathlib

/-!
Verification of the polyhedge analytical core against its specification.

The Python source is shallowly embedded: real-number arithmetic is modelled
exactly over `ℚ`; the transcendental primitives (natural log, exp, square
root on nonnegative reals, standard normal CDF) the code takes from
`numpy`/`scipy` are abstracted as a structure of rational-valued functions,
so theorems quantified over that structure hold for every interpretation of
those primitives.  Python `float` division raising `ZeroDivisionError`, and
numpy's IEEE-style `inf`/`nan` results, are modelled explicitly where a
claim depends on them.
-/

/-- Abstract numerical primitives supplied by numpy/scipy: `log`, `exp`,
`sqrt` (as used on nonnegative arguments) and the standard normal CDF
`norm.cdf`.  Theorems quantify over this structure, so they hold however
the library implements these functions. -/
structure MathPrims where
  log : ℚ → ℚ
  exp : ℚ → ℚ
  sqrt : ℚ → ℚ
  cdf : ℚ → ℚ

/-- A trivial interpretation of the primitives, used to instantiate
universally quantified theorems at concrete inputs. -/
def trivPrims : MathPrims :=
  { log := fun _ => 0, exp := fun _ => 0, sqrt := fun _ => 0, cdf := fun _ => 0 }

namespace InefficiencyDetector

/-- `InefficiencyDetector.calculate_edge` (inefficiency_detector.py, lines
35–63).  `threshold` is the detector's `min_edge_threshold` field (default
`0.10`).  Returns `(edge_absolute, edge_percentage, recommendation)`;
`market_price ≤ 0` yields `(0, 0, "INVALID")`.  Note the source compares
`edge_percentage` against `min_edge_threshold` itself, not against
`min_edge_threshold * 100`. -/
def calculate_edge (threshold theoretical_price market_price : ℚ) :
    ℚ × ℚ × String :=
  if market_price ≤ 0 then (0, 0, "INVALID")
  else
    let edge_absolute := theoretical_price - market_price
    let edge_percentage := edge_absolute / market_price * 100
    let recommendation :=
      if edge_percentage > threshold then "BET_YES"
      else if edge_percentage < -threshold then "BET_NO"
      else "SKIP"
    (edge_absolute, edge_percentage, recommendation)

/-- The `is_opportunity` flag computed by
`InefficiencyDetector.analyze_market` (inefficiency_detector.py, line 92):
`abs(edge_pct) >= self.min_edge_threshold * 100`. -/
def is_opportunity (threshold edge_percentage : ℚ) : Bool :=
  |edge_percentage| ≥ threshold * 100

end InefficiencyDetector

namespace KellyPositionSizer

/-- `KellyPositionSizer.calculate_kelly_fraction` (position_sizer.py, lines
38–70).  Arguments are `win_probability` and `payout_ratio`; the net odds
are `payout_ratio - 1`. -/
def calculate_kelly_fraction (win_probability payout_ratio : ℚ) : ℚ :=
  if win_probability ≤ 0 ∨ win_probability ≥ 1 then 0
  else if payout_ratio ≤ 0 then 0
  else
    let odds_received := payout_ratio - 1
    let lose_probability := 1 - win_probability
    if odds_received ≤ 0 then 0
    else
      let kelly_f := (win_probability * odds_received - lose_probability) / odds_received
      max 0 kelly_f

end KellyPositionSizer

/-- A Python runtime error raised by the embedded code.  The only error the
modelled fragments can raise is `ZeroDivisionError` (float division or a
numpy scalar operation is modelled separately). -/
inductive PyErr where
  | zeroDivision
deriving DecidableEq, Repr

deriving instance DecidableEq for Except

/-- Python `float` division `a / b`: raises `ZeroDivisionError` when the
denominator is zero. -/
def pydiv (a b : ℚ) : Except PyErr ℚ :=
  if b = 0 then .error .zeroDivision else .ok (a / b)

namespace KellyPositionSizer

/-- The fields of an opportunity record read by
`KellyPositionSizer.size_position`. -/
structure SizeOpp where
  theoretical_price : ℚ
  market_price : ℚ
  recommendation : String

/-- The position-sizing result dictionary.  The `win_probability` and
`payout_ratio` keys are absent from the dictionary returned on the
no-bet branch, hence `Option`. -/
structure SizedPosition where
  allocation : ℚ
  shares : ℚ
  kelly_fraction : ℚ
  risk_adjusted_fraction : ℚ
  expected_value : ℚ
  win_probability : Option ℚ
  payout_ratio : Option ℚ
deriving DecidableEq, Repr

/-- `KellyPositionSizer.size_position` (position_sizer.py, lines 72–143).
`kelly_mult` and `max_position_size` are the sizer's configuration fields
(defaults `0.25` and `0.40`).  The two divisions by `market_price`
(respectively `1 - market_price`) are Python float divisions and raise
`ZeroDivisionError` on a zero denominator; the function has no guard of its
own. -/
def size_position (kelly_mult max_position_size : ℚ)
    (opportunity : SizeOpp) (total_capital : ℚ) :
    Except PyErr SizedPosition :=
  let theoretical_price := opportunity.theoretical_price
  let market_price := opportunity.market_price
  let recommendation := opportunity.recommendation
  if recommendation = "BET_YES" then do
    let win_probability := theoretical_price
    let payout_ratio ← pydiv 1 market_price
    let kelly_f := calculate_kelly_fraction win_probability payout_ratio
    let risk_adjusted_fraction := min (kelly_f * kelly_mult) max_position_size
    let allocation := total_capital * risk_adjusted_fraction
    let shares ← pydiv allocation market_price
    let expected_value := allocation * (win_probability * payout_ratio - 1)
    .ok ⟨allocation, shares, kelly_f, risk_adjusted_fraction, expected_value,
      some win_probability, some payout_ratio⟩
  else if recommendation = "BET_NO" then do
    let win_probability := 1 - theoretical_price
    let no_price := 1 - market_price
    let payout_ratio ← pydiv 1 no_price
    let kelly_f := calculate_kelly_fraction win_probability payout_ratio
    let risk_adjusted_fraction := min (kelly_f * kelly_mult) max_position_size
    let allocation := total_capital * risk_adjusted_fraction
    let shares ← pydiv allocation no_price
    let expected_value := allocation * (win_probability * payout_ratio - 1)
    .ok ⟨allocation, shares, kelly_f, risk_adjusted_fraction, expected_value,
      some win_probability, some payout_ratio⟩
  else
    .ok ⟨0, 0, 0, 0, 0, none, none⟩

/-- The fields of a position record read and mutated by
`KellyPositionSizer.optimize_portfolio`. -/
structure Position where
  allocation : ℚ
  shares : ℚ
  expected_value : ℚ
deriving DecidableEq, Repr

/-- Proportional scaling of a position by `s`, as performed in the
over-allocated branch of `optimize_portfolio`. -/
def scalePosition (s : ℚ) (p : Position) : Position :=
  ⟨p.allocation * s, p.shares * s, p.expected_value * s⟩

/-- `KellyPositionSizer.optimize_portfolio` (position_sizer.py, lines
184–225): drop positions whose allocation is below `min_allocation`, sort
by expected value descending (Python's stable sort), and if the remaining
allocations sum to more than `total_capital`, scale every position's
allocation, shares and expected value by `total_capital / Σ allocation`. -/
def optimize_portfolio (positions : List Position)
    (total_capital : ℚ) (min_allocation : ℚ) : List Position :=
  let valid_positions := positions.filter
    (fun p => min_allocation ≤ p.allocation)
  if valid_positions = [] then []
  else
    let sorted := valid_positions.mergeSort
      (fun a b => b.expected_value ≤ a.expected_value)
    let total_allocated := (valid_positions.map (·.allocation)).sum
    if total_capital < total_allocated then
      let scale_factor := total_capital / total_allocated
      sorted.map (scalePosition scale_factor)
    else
      sorted

end KellyPositionSizer

/-- A numpy floating-point scalar: a finite value (kept exact as a
rational), `inf`, `-inf`, or `nan`.  Arithmetic on these follows IEEE-754
as numpy implements it: operations involving `nan` give `nan`, division of
a nonzero finite value by zero gives a signed infinity (with a runtime
warning, not an exception), `0/0` and `inf - inf` give `nan`. -/
inductive NpVal where
  | fin (q : ℚ)
  | posInf
  | negInf
  | nan
deriving DecidableEq, Repr

namespace NpVal

/-- IEEE addition. -/
def add : NpVal → NpVal → NpVal
  | fin a, fin b => fin (a + b)
  | fin _, posInf => posInf
  | fin _, negInf => negInf
  | posInf, fin _ => posInf
  | negInf, fin _ => negInf
  | posInf, posInf => posInf
  | negInf, negInf => negInf
  | posInf, negInf => nan
  | negInf, posInf => nan
  | nan, _ => nan
  | _, nan => nan

/-- IEEE negation. -/
def neg : NpVal → NpVal
  | fin a => fin (-a)
  | posInf => negInf
  | negInf => posInf
  | nan => nan

/-- IEEE subtraction. -/
def sub (a b : NpVal) : NpVal := add a (neg b)

/-- IEEE multiplication (`0 · ∞ = nan`). -/
def mul : NpVal → NpVal → NpVal
  | fin a, fin b => fin (a * b)
  | fin a, posInf => if 0 < a then posInf else if a < 0 then negInf else nan
  | posInf, fin a => if 0 < a then posInf else if a < 0 then negInf else nan
  | fin a, negInf => if 0 < a then negInf else if a < 0 then posInf else nan
  | negInf, fin a => if 0 < a then negInf else if a < 0 then posInf else nan
  | posInf, posInf => posInf
  | posInf, negInf => negInf
  | negInf, posInf => negInf
  | negInf, negInf => posInf
  | nan, _ => nan
  | _, nan => nan

/-- numpy division: division by (positive) floating zero yields a signed
infinity and a warning, never an exception; `0/0` and `∞/∞` yield `nan`. -/
def div : NpVal → NpVal → NpVal
  | fin a, fin b =>
      if b ≠ 0 then fin (a / b)
      else if a = 0 then nan
      else if 0 < a then posInf else negInf
  | fin _, posInf => fin 0
  | fin _, negInf => fin 0
  | posInf, fin b => if 0 ≤ b then posInf else negInf
  | negInf, fin b => if 0 ≤ b then negInf else posInf
  | posInf, posInf => nan
  | posInf, negInf => nan
  | negInf, posInf => nan
  | negInf, negInf => nan
  | nan, _ => nan
  | _, nan => nan

instance : Add NpVal := ⟨add⟩
instance : Neg NpVal := ⟨neg⟩
instance : Sub NpVal := ⟨sub⟩
instance : Mul NpVal := ⟨mul⟩
instance : Div NpVal := ⟨div⟩

end NpVal

/-- `np.log` on a Python float: positive argument gives the (abstract)
logarithm, zero gives `-inf`, negative gives `nan`. -/
def npLog (P : MathPrims) (x : ℚ) : NpVal :=
  if 0 < x then .fin (P.log x) else if x = 0 then .negInf else .nan

/-- `np.sqrt` on a Python float: negative argument gives `nan` (with a
warning), otherwise the (abstract) square root. -/
def npSqrt (P : MathPrims) (x : ℚ) : NpVal :=
  if x < 0 then .nan else .fin (P.sqrt x)

/-- `np.exp` on a numpy scalar. -/
def npExp (P : MathPrims) : NpVal → NpVal
  | .fin x => .fin (P.exp x)
  | .posInf => .posInf
  | .negInf => .fin 0
  | .nan => .nan

/-- `scipy.stats.norm.cdf` on a numpy scalar: `cdf(∞) = 1`,
`cdf(-∞) = 0`, `cdf(nan) = nan`. -/
def normCdf (P : MathPrims) : NpVal → NpVal
  | .fin x => .fin (P.cdf x)
  | .posInf => .fin 1
  | .negInf => .fin 0
  | .nan => .nan

namespace TheoreticalPricingEngine

/-- `TheoreticalPricingEngine.barrier_hit_probability`
(theoretical_engine.py, lines 37–75).  `r` is the engine's risk-free-rate
field (default 0).  If `S0 ≥ H` the function returns `1.0` immediately.
Otherwise it evaluates the GBM barrier-hitting formula; the two pure-Python
float divisions `H / S0` and `(mu - r) / sigma` raise `ZeroDivisionError`
on a zero denominator, while every later operation involves a numpy scalar
and follows IEEE semantics (`NpVal`).  There is no validation of `T` or
`sigma`. -/
def barrier_hit_probability (P : MathPrims) (r S0 H T sigma mu : ℚ) :
    Except PyErr NpVal :=
  if S0 ≥ H then .ok (.fin 1)
  else do
    let ratio ← pydiv H S0
    let b := npLog P ratio
    let nuLeft ← pydiv (mu - r) sigma
    let nu := nuLeft - sigma / 2
    let sqrt_T := npSqrt P T
    let term1 := normCdf P ((-b) / (NpVal.fin sigma * sqrt_T) +
      NpVal.fin nu * sqrt_T)
    let term2 := npExp P (NpVal.fin (-2 * nu) * b / NpVal.fin (sigma ^ 2)) *
      normCdf P ((-b) / (NpVal.fin sigma * sqrt_T) - NpVal.fin nu * sqrt_T)
    .ok (term1 + term2)

/-- `TheoreticalPricingEngine.calculate_delta` (theoretical_engine.py,
lines 77–104): central difference of the hit probability with step
`epsilon` (default 1). -/
def calculate_delta (P : MathPrims) (r S0 H T sigma epsilon : ℚ) :
    Except PyErr NpVal := do
  let p_up ← barrier_hit_probability P r (S0 + epsilon) H T sigma 0
  let p_down ← barrier_hit_probability P r (S0 - epsilon) H T sigma 0
  .ok ((p_up - p_down) / NpVal.fin (2 * epsilon))

/-- The market-record fields consumed by
`TheoreticalPricingEngine.price_market`. -/
structure MarketRec where
  asset : String
  current_price : ℚ
  target_price : ℚ
  days_to_expiry : ℚ
  volatility : ℚ
deriving DecidableEq, Repr

/-- The result of `price_market`: the original market fields (preserved by
`market.copy()` in `batch_price_markets`) plus the pricing outputs. -/
structure PricedMarket where
  market : MarketRec
  theoretical_price : NpVal
  delta : NpVal
  time_to_expiry : ℚ
deriving DecidableEq, Repr

/-- `TheoreticalPricingEngine.price_market` (theoretical_engine.py, lines
156–198): converts days to years, prices the market and computes delta;
any exception from the pricing propagates. -/
def price_market (P : MathPrims) (r : ℚ) (m : MarketRec) :
    Except PyErr PricedMarket := do
  let T := m.days_to_expiry / 365
  let p_theory ← barrier_hit_probability P r m.current_price
    m.target_price T m.volatility 0
  let delta ← calculate_delta P r m.current_price m.target_price
    T m.volatility 1
  .ok ⟨m, p_theory, delta, T⟩

/-- `TheoreticalPricingEngine.batch_price_markets` (theoretical_engine.py,
lines 200–236): prices each market inside `try/except`; a record whose
pricing raises is logged and skipped, and the loop continues with the
remaining records. -/
def batch_price_markets (P : MathPrims) (r : ℚ) :
    List MarketRec → List PricedMarket
  | [] => []
  | m :: ms =>
    match price_market P r m with
    | .ok res => res :: batch_price_markets P r ms
    | .error _ => batch_price_markets P r ms

end TheoreticalPricingEngine

namespace VerifyMath

/-- Module-level `barrier_hit_probability` (verify_math.py, lines 16–47),
the duplicated implementation of the pricing formula.  Arithmetic is
totalised over `ℚ` (Lean's `x / 0 = 0` convention); this agrees with the
source everywhere the formula is evaluated on its intended domain
(`S0 > 0`, `σ ≠ 0`). -/
def barrier_hit_probability (P : MathPrims) (S0 H T sigma r mu : ℚ) : ℚ :=
  if S0 ≥ H then 1
  else
    let b := P.log (H / S0)
    let nu := (mu - r) / sigma - sigma / 2
    let term1 := P.cdf (-b / (sigma * P.sqrt T) + nu * P.sqrt T)
    let term2 := P.exp (-2 * nu * b / sigma ^ 2) *
      P.cdf (-b / (sigma * P.sqrt T) - nu * P.sqrt T)
    term1 + term2

/-- Module-level `calculate_delta` (verify_math.py, lines 50–66). -/
def calculate_delta (P : MathPrims) (S0 H T sigma r mu epsilon : ℚ) : ℚ :=
  (barrier_hit_probability P (S0 + epsilon) H T sigma r mu -
    barrier_hit_probability P (S0 - epsilon) H T sigma r mu) /
  (2 * epsilon)

/-- The fields of the `params` dictionary read by `simulate_hedged_pnl`
(produced by `calculate_hedge_params`). -/
structure SimParams where
  S0 : ℚ
  H : ℚ
  T : ℚ
  sigma : ℚ
  num_shares : ℚ
  cost_usd : ℚ
  hedge_size_asset : ℚ
deriving DecidableEq, Repr

/-- Daily time step `dt = 1/365` used by the simulator. -/
def dt : ℚ := 1 / 365

/-- Python `int()` truncation toward zero. -/
def pyTrunc (q : ℚ) : ℤ :=
  if 0 ≤ q then ⌊q⌋ else ⌈q⌉

/-- `n_steps = int(T * 365)`; a nonpositive count yields an empty
`range`. -/
def nSteps (T : ℚ) : ℕ := (pyTrunc (T * 365)).toNat

/-- One GBM update:
`St * exp((0 - 0.5·σ²)·dt + σ·dW)` with `dW` the sampled normal draw. -/
def gbmStep (P : MathPrims) (sigma dW St : ℚ) : ℚ :=
  St * P.exp ((0 - 1 / 2 * sigma ^ 2) * dt + sigma * dW)

/-- The per-path loop state of `simulate_hedged_pnl`: current price,
running maximum, current hedge notional, accumulated fees, rebalance
count. -/
structure PathState where
  St : ℚ
  max_price : ℚ
  hedge_position : ℚ
  cumulative_fees : ℚ
  rebalance_count : ℕ
deriving DecidableEq, Repr

/-- One iteration of the inner loop of `simulate_hedged_pnl`
(verify_math.py, lines 181–196): GBM step, running-maximum update, then
optional rebalancing every `rebalance_freq` days (recompute delta at the
remaining time, pay `fee_rate·|Δhedge|·St`, move the hedge).  A `None` or
zero `rebalance_freq` is falsy in Python, so no rebalancing occurs. -/
def simStep (P : MathPrims) (prm : SimParams) (fee_rate : ℚ)
    (rebalance_freq : Option ℕ) (dW : ℚ) (step : ℕ) (s : PathState) :
    PathState :=
  let St := gbmStep P prm.sigma dW s.St
  let max_price := max s.max_price St
  match rebalance_freq with
  | some freq =>
    if freq ≠ 0 ∧ (step + 1) % freq = 0 then
      let remaining_T := prm.T - (step + 1 : ℕ) * dt
      if 0 < remaining_T then
        let new_delta :=
          calculate_delta P St prm.H remaining_T prm.sigma 0 0 1 *
            prm.num_shares
        let adjustment := new_delta - s.hedge_position
        { St := St, max_price := max_price, hedge_position := new_delta,
          cumulative_fees := s.cumulative_fees +
            fee_rate * |adjustment| * St,
          rebalance_count := s.rebalance_count + 1 }
      else
        { s with St := St, max_price := max_price }
    else
      { s with St := St, max_price := max_price }
  | none => { s with St := St, max_price := max_price }

/-- Runs `m` consecutive iterations of the inner loop starting at step
index `k`, drawing `dW` for step `k` from `draw k`. -/
def runSteps (P : MathPrims) (prm : SimParams) (fee_rate : ℚ)
    (freq : Option ℕ) (draw : ℕ → ℚ) : ℕ → ℕ → PathState → PathState
  | 0, _, s => s
  | m + 1, k, s =>
    runSteps P prm fee_rate freq draw m (k + 1)
      (simStep P prm fee_rate freq (draw k) k s)

/-- The initial per-path state (verify_math.py, lines 174–179): price and
maximum start at `S0`, hedge at the initial hedge size, and entry fees
`fee_rate·cost + fee_rate·hedge·S0` are charged up front. -/
def initState (prm : SimParams) (fee_rate : ℚ) : PathState :=
  { St := prm.S0, max_price := prm.S0,
    hedge_position := prm.hedge_size_asset,
    cumulative_fees := fee_rate * prm.cost_usd +
      fee_rate * prm.hedge_size_asset * prm.S0,
    rebalance_count := 0 }

/-- The sequence of prices visited by a path: the successive `St` values
produced by `m` GBM steps from `St0`, starting at step index `k`.  The
price evolution depends only on the draws, not on the hedge state. -/
def pricePath (P : MathPrims) (sigma : ℚ) (draw : ℕ → ℚ) :
    ℕ → ℕ → ℚ → List ℚ
  | 0, _, _ => []
  | m + 1, k, St =>
    let St' := gbmStep P sigma (draw k) St
    St' :: pricePath P sigma draw m (k + 1) St'

/-- The final loop state of path `p`: path `p` consumes the draws at
global indices `p·n_steps + 0, …, p·n_steps + (n_steps − 1)`, matching the
sequential consumption of the shared numpy RNG stream (one draw per
step). -/
def pathFinalState (P : MathPrims) (prm : SimParams) (fee_rate : ℚ)
    (freq : Option ℕ) (normals : ℕ → ℚ) (p : ℕ) : PathState :=
  runSteps P prm fee_rate freq (fun k => normals (p * nSteps prm.T + k))
    (nSteps prm.T) 0 (initState prm fee_rate)

/-- The per-path result row appended by `simulate_hedged_pnl`
(verify_math.py, lines 198–223). -/
structure PathResult where
  path : ℕ
  hit : Bool
  final_price : ℚ
  max_price : ℚ
  bet_pnl : ℚ
  hedge_pnl : ℚ
  fees : ℚ
  total_pnl : ℚ
  rebalances : ℕ
deriving DecidableEq, Repr

/-- Settlement of one path (verify_math.py, lines 198–223):
`hit = (max_price ≥ H)`; option-leg PnL is `shares·1 − cost` when hit and
`−cost` otherwise; hedge-leg PnL is `−hedge_position·(S_T − S0)`; total is
their sum minus the accumulated fees. -/
def simulate_path (P : MathPrims) (prm : SimParams) (fee_rate : ℚ)
    (freq : Option ℕ) (normals : ℕ → ℚ) (p : ℕ) : PathResult :=
  let s := pathFinalState P prm fee_rate freq normals p
  let hit : Bool := prm.H ≤ s.max_price
  let bet_pnl := if hit then prm.num_shares * 1 - prm.cost_usd
    else -prm.cost_usd
  let hedge_pnl := -s.hedge_position * (s.St - prm.S0)
  { path := p, hit := hit, final_price := s.St, max_price := s.max_price,
    bet_pnl := bet_pnl, hedge_pnl := hedge_pnl,
    fees := s.cumulative_fees,
    total_pnl := bet_pnl + hedge_pnl - s.cumulative_fees,
    rebalances := s.rebalance_count }

/-- `simulate_hedged_pnl` (verify_math.py, lines 139–225): simulates
`num_paths` independent paths; the randomness is the stream `normals` of
sampled `np.random.normal(0, √dt)` values, consumed sequentially (path
`p`, step `k` reads index `p·n_steps + k`). -/
def simulate_hedged_pnl (P : MathPrims) (prm : SimParams)
    (num_paths : ℕ) (fee_rate : ℚ) (freq : Option ℕ)
    (normals : ℕ → ℚ) : List PathResult :=
  (List.range num_paths).map (simulate_path P prm fee_rate freq normals)

end VerifyMath

namespace StrategyGrouper

/-- The fields of an opportunity row read by
`StrategyGrouper.group_opportunities`.  Maturity datetimes are modelled as
integer epoch seconds (rows without a parseable maturity all receive the
same "now" timestamp in the source, hence equal integers here). -/
structure Opp where
  asset : String
  maturity : ℤ
  recommendation : String
deriving DecidableEq, Repr

/-- `(maturity - maturity2).days` for datetimes modelled as epoch seconds:
Python's `timedelta.days` is the floor division of the signed difference
by 86400 seconds. -/
def daysDiff (m1 m2 : ℤ) : ℤ :=
  Int.fdiv (m1 - m2) 86400

/-- The recommendations currently represented in a growing group
(`[o['recommendation'] for o in strategy_group]`). -/
def recs (g : List Opp) : List String :=
  g.map (·.recommendation)

/-- `enumerate`-style indexing of the opportunity rows (the DataFrame's
integer index). -/
def indexList : ℕ → List Opp → List (ℕ × Opp)
  | _, [] => []
  | n, a :: l => (n, a) :: indexList (n + 1) l

/-- The inner candidate loop of `group_opportunities`
(strategy_scanner.py, lines 278–317).  Scanning the full indexed row list:
skip processed rows, rows of a different asset, and rows whose maturity is
more than 1 day from the seed's; otherwise add the candidate exactly when
the group does not yet hold both a `BET_YES` and a `BET_NO` and the
candidate's recommendation is not yet represented; after each compatible
candidate, break once the group has reached `maxO` members. -/
def growGroup (asset : String) (mat : ℤ) (maxO : ℕ) :
    List (ℕ × Opp) → List Opp → List ℕ → List Opp × List ℕ
  | [], g, pr => (g, pr)
  | (j, b) :: rest, g, pr =>
    if j ∈ pr then growGroup asset mat maxO rest g pr
    else if b.asset ≠ asset then growGroup asset mat maxO rest g pr
    else if 1 < |daysDiff mat b.maturity| then
      growGroup asset mat maxO rest g pr
    else
      let gp :=
        if ¬ ("BET_YES" ∈ recs g ∧ "BET_NO" ∈ recs g) ∧
            b.recommendation ∉ recs g
        then (g ++ [b], j :: pr)
        else (g, pr)
      if maxO ≤ gp.1.length then gp
      else growGroup asset mat maxO rest gp.1 gp.2

/-- The outer seed loop of `group_opportunities` (strategy_scanner.py,
lines 255–327): each unprocessed row seeds a new group, grown by scanning
the full row list; the group is kept when it reaches the minimum size. -/
def groupLoop (all : List (ℕ × Opp)) (minO maxO : ℕ) :
    List (ℕ × Opp) → List ℕ → List (List Opp)
  | [], _ => []
  | (i, a) :: rest, pr =>
    if i ∈ pr then groupLoop all minO maxO rest pr
    else
      let gp := growGroup a.asset a.maturity maxO all [a] (i :: pr)
      let tail := groupLoop all minO maxO rest gp.2
      if minO ≤ gp.1.length then gp.1 :: tail else tail

/-- `StrategyGrouper.group_opportunities` (strategy_scanner.py, lines
230–327), with `minO`/`maxO` the grouper's `min_opportunities` /
`max_opportunities` configuration (the scanner uses 1 and 4). -/
def group_opportunities (minO maxO : ℕ) (opps : List Opp) :
    List (List Opp) :=
  groupLoop (indexList 0 opps) minO maxO (indexList 0 opps) []

end StrategyGrouper

/-- Notation unfolding for `NpVal` arithmetic (used to evaluate the
embedded numpy expressions). -/
theorem npval_add_def (a b : NpVal) : a + b = NpVal.add a b := rfl

/-- Notation unfolding for `NpVal` subtraction. -/
theorem npval_sub_def (a b : NpVal) : a - b = NpVal.sub a b := rfl

/-- Notation unfolding for `NpVal` multiplication. -/
theorem npval_mul_def (a b : NpVal) : a * b = NpVal.mul a b := rfl

/-- Notation unfolding for `NpVal` division. -/
theorem npval_div_def (a b : NpVal) : a / b = NpVal.div a b := rfl

/-- Notation unfolding for `NpVal` negation. -/
theorem npval_neg_def (a : NpVal) : -a = NpVal.neg a := rfl

/-- Claim C5, counterexample: the source's
`calculate_kelly_fraction(0.6, 1.0)` returns `0`, not `0.2`: the second
argument is the payout ratio, so the net odds are `1.0 - 1 = 0 ≤ 0` and the
guard returns `0`. -/
theorem kelly_point_six_one_is_zero :
    KellyPositionSizer.calculate_kelly_fraction 0.6 1.0 = 0 ∧
      (0.2 : ℚ) ≠ 0 := by
  constructor
  · norm_num [KellyPositionSizer.calculate_kelly_fraction]
  · norm_num

/-- Claim C5 (amended): the Kelly fraction equals
`max 0 ((p·b − (1−p))/b)` with `b = payoutRatio − 1` whenever
`p ∈ (0,1)`, `payoutRatio > 0` and `b > 0`; it is `0` whenever `p ≤ 0`,
`p ≥ 1`, `payoutRatio ≤ 0` or `b ≤ 0`; and
`kellyFraction(0.6, 2.0) = 0.2` exactly (payout ratio `2.0`, i.e. net odds
`b = 1.0`). -/
theorem kelly_fraction_spec :
    (∀ p pr : ℚ, 0 < p → p < 1 → 0 < pr → 0 < pr - 1 →
      KellyPositionSizer.calculate_kelly_fraction p pr =
        max 0 ((p * (pr - 1) - (1 - p)) / (pr - 1))) ∧
    (∀ p pr : ℚ, p ≤ 0 ∨ p ≥ 1 ∨ pr ≤ 0 ∨ pr - 1 ≤ 0 →
      KellyPositionSizer.calculate_kelly_fraction p pr = 0) ∧
    KellyPositionSizer.calculate_kelly_fraction 0.6 2.0 = 0.2 := by
  refine ⟨?_, ?_, ?_⟩
  · intro p pr hp hp1 hpr hb
    rw [KellyPositionSizer.calculate_kelly_fraction]
    rw [if_neg (by push_neg; constructor <;> linarith)]
    rw [if_neg (by linarith)]
    simp only
    rw [if_neg (by linarith)]
  · intro p pr h
    rw [KellyPositionSizer.calculate_kelly_fraction]
    rcases h with h | h | h | h
    · rw [if_pos (Or.inl h)]
    · rw [if_pos (Or.inr h)]
    · by_cases h01 : p ≤ 0 ∨ p ≥ 1
      · rw [if_pos h01]
      · rw [if_neg h01, if_pos h]
    · by_cases h01 : p ≤ 0 ∨ p ≥ 1
      · rw [if_pos h01]
      · rw [if_neg h01]
        by_cases hpr : pr ≤ 0
        · rw [if_pos hpr]
        · rw [if_neg hpr]
          simp only
          rw [if_pos h]
  · norm_num [KellyPositionSizer.calculate_kelly_fraction]

/-- Claim C5 witness: the amended statement evaluated at concrete inputs. -/
theorem kelly_fraction_spec_witness :
    KellyPositionSizer.calculate_kelly_fraction 0.6 3.0 =
      max 0 ((0.6 * (3.0 - 1) - (1 - 0.6)) / (3.0 - 1)) ∧
    KellyPositionSizer.calculate_kelly_fraction 1.5 2.0 = 0 := by
  constructor
  · exact kelly_fraction_spec.1 0.6 3.0 (by norm_num) (by norm_num)
      (by norm_num) (by norm_num)
  · exact kelly_fraction_spec.2.1 1.5 2.0 (by norm_num)

/-- Claim C1: the source's `calculate_edge`, with the default threshold
`0.10`, at `theoretical = 0.505`, `market = 0.5`: the percentage edge is
`1` (one percent), the code recommends `BET_YES` because it compares the
percentage against the raw threshold `0.10`, while the specified comparison
against `threshold·100 = 10` yields `SKIP`; the same file's
`is_opportunity` flag (which does use `threshold·100`) is `false` for this
input, contradicting the recommendation. -/
theorem calculate_edge_threshold_bug :
    InefficiencyDetector.calculate_edge 0.10 0.505 0.5 =
      (0.005, 1, "BET_YES") ∧
    ¬ ((1 : ℚ) > 0.10 * 100) ∧
    InefficiencyDetector.is_opportunity 0.10 1 = false := by
  refine ⟨?_, by norm_num, ?_⟩
  · norm_num [InefficiencyDetector.calculate_edge]
  · norm_num [InefficiencyDetector.is_opportunity]

/-- Claim C10: for an opportunity whose market price lies strictly between
0 and 1, `size_position` performs no division by zero and returns a
(finite, rational) position; having no guard of its own, it raises
`ZeroDivisionError` when the market price is 0 on a `BET_YES`
recommendation, and when it is 1 on a `BET_NO` recommendation. -/
theorem size_position_division_safety :
    (∀ (km mps : ℚ) (opp : KellyPositionSizer.SizeOpp) (cap : ℚ),
      0 < opp.market_price → opp.market_price < 1 →
      ∃ r, KellyPositionSizer.size_position km mps opp cap = .ok r) ∧
    (∀ (km mps : ℚ) (opp : KellyPositionSizer.SizeOpp) (cap : ℚ),
      opp.recommendation = "BET_YES" → opp.market_price = 0 →
      KellyPositionSizer.size_position km mps opp cap =
        .error .zeroDivision) ∧
    (∀ (km mps : ℚ) (opp : KellyPositionSizer.SizeOpp) (cap : ℚ),
      opp.recommendation = "BET_NO" → opp.market_price = 1 →
      KellyPositionSizer.size_position km mps opp cap =
        .error .zeroDivision) := by
  refine ⟨?_, ?_, ?_⟩
  · intro km mps opp cap h0 h1
    have hmp : opp.market_price ≠ 0 := ne_of_gt h0
    have hnp : (1 : ℚ) - opp.market_price ≠ 0 := by
      have : (0 : ℚ) < 1 - opp.market_price := by linarith
      exact ne_of_gt this
    by_cases hy : opp.recommendation = "BET_YES"
    · exact ⟨_, by simp [KellyPositionSizer.size_position, hy, pydiv, hmp]; rfl⟩
    · by_cases hn : opp.recommendation = "BET_NO"
      · exact ⟨_, by simp [KellyPositionSizer.size_position, hy, hn, pydiv, hnp]; rfl⟩
      · exact ⟨_, by simp [KellyPositionSizer.size_position, hy, hn]; rfl⟩
  · intro km mps opp cap hy hmp
    simp [KellyPositionSizer.size_position, hy, pydiv, hmp]; rfl
  · intro km mps opp cap hn hmp
    by_cases hy : opp.recommendation = "BET_YES"
    · rw [hy] at hn; exact absurd hn (by decide)
    · simp [KellyPositionSizer.size_position, hy, hn, pydiv, hmp]; rfl

/-- Claim C10 witness: the three parts of `size_position_division_safety`
evaluated at concrete opportunities. -/
theorem size_position_division_safety_witness :
    (∃ r, KellyPositionSizer.size_position 0.25 0.40
        ⟨0.8, 0.5, "BET_YES"⟩ 1000 = .ok r) ∧
    KellyPositionSizer.size_position 0.25 0.40
        ⟨0.8, 0, "BET_YES"⟩ 1000 = .error .zeroDivision ∧
    KellyPositionSizer.size_position 0.25 0.40
        ⟨0.8, 1, "BET_NO"⟩ 1000 = .error .zeroDivision :=
  ⟨size_position_division_safety.1 0.25 0.40 ⟨0.8, 0.5, "BET_YES"⟩ 1000
      (by norm_num) (by norm_num),
   size_position_division_safety.2.1 0.25 0.40 ⟨0.8, 0, "BET_YES"⟩ 1000
      rfl rfl,
   size_position_division_safety.2.2 0.25 0.40 ⟨0.8, 1, "BET_NO"⟩ 1000
      rfl rfl⟩

/-- Claim C4: for every position list and nonnegative total capital, the
optimized portfolio's total allocation is at most the capital; positions
below `min_allocation` are dropped, the rest are sorted by expected value
descending, and when the summed allocation exceeds the capital every
position is scaled by `capital / Σ allocation` (scale `1` otherwise), the
result being a permutation (reordering by expected value) of the scaled
surviving positions. -/
theorem optimize_portfolio_spec :
    ∀ (positions : List KellyPositionSizer.Position)
      (total_capital min_allocation : ℚ),
      0 ≤ total_capital →
      ((KellyPositionSizer.optimize_portfolio positions total_capital
          min_allocation).map (·.allocation)).sum ≤ total_capital ∧
      (KellyPositionSizer.optimize_portfolio positions total_capital
          min_allocation).Pairwise
        (fun a b => b.expected_value ≤ a.expected_value) ∧
      (KellyPositionSizer.optimize_portfolio positions total_capital
          min_allocation).Perm
        ((positions.filter (fun p => min_allocation ≤ p.allocation)).map
          (KellyPositionSizer.scalePosition
            (if total_capital <
                ((positions.filter (fun p => min_allocation ≤ p.allocation)).map
                  (·.allocation)).sum
             then total_capital /
                ((positions.filter (fun p => min_allocation ≤ p.allocation)).map
                  (·.allocation)).sum
             else 1))) := by
  intro ps cap minA hcap
  classical
  set vp := ps.filter (fun p => minA ≤ p.allocation) with hvp_def
  set tot := (vp.map (·.allocation)).sum with htot_def
  by_cases hvp : vp = []
  · refine ⟨?_, ?_, ?_⟩ <;>
      simp [KellyPositionSizer.optimize_portfolio, ← hvp_def, hvp, hcap]
  · have hperm : (vp.mergeSort
        (fun a b => b.expected_value ≤ a.expected_value)).Perm vp :=
      List.mergeSort_perm vp _
    have hsorted : (vp.mergeSort
        (fun a b => b.expected_value ≤ a.expected_value)).Pairwise
        (fun a b => b.expected_value ≤ a.expected_value) := by
      have := @List.sorted_mergeSort KellyPositionSizer.Position
        (fun a b : KellyPositionSizer.Position =>
          decide (b.expected_value ≤ a.expected_value))
        (fun a b c hab hbc => by
          simp only [decide_eq_true_iff] at *; exact le_trans hbc hab)
        (fun a b => by
          simp only [Bool.or_eq_true, decide_eq_true_iff]
          exact le_total _ _)
        vp
      exact this.imp (by simp)
    have hsum : ((vp.mergeSort
        (fun a b => b.expected_value ≤ a.expected_value)).map
          (·.allocation)).sum = tot := (hperm.map _).sum_eq
    by_cases hover : cap < tot
    · have htotpos : 0 < tot := lt_of_le_of_lt hcap hover
      have hs_nonneg : 0 ≤ cap / tot := div_nonneg hcap (le_of_lt htotpos)
      refine ⟨?_, ?_, ?_⟩
      · have : ((KellyPositionSizer.optimize_portfolio ps cap minA).map
            (·.allocation)).sum = cap := by
          simp only [KellyPositionSizer.optimize_portfolio, ← hvp_def,
            if_neg hvp, ← htot_def, if_pos hover]
          rw [List.map_map]
          have : ((·.allocation) ∘
              KellyPositionSizer.scalePosition (cap / tot)) =
              fun p : KellyPositionSizer.Position =>
                p.allocation * (cap / tot) := rfl
          rw [this, List.sum_map_mul_right, hsum]
          field_simp
        rw [this]
      · simp only [KellyPositionSizer.optimize_portfolio, ← hvp_def,
          if_neg hvp, ← htot_def, if_pos hover]
        exact hsorted.map _ (fun a b h => by
          simpa [KellyPositionSizer.scalePosition] using
            mul_le_mul_of_nonneg_right h hs_nonneg)
      · simp only [KellyPositionSizer.optimize_portfolio, ← hvp_def,
          if_neg hvp, ← htot_def, if_pos hover]
        exact hperm.map _
    · refine ⟨?_, ?_, ?_⟩
      · simp only [KellyPositionSizer.optimize_portfolio, ← hvp_def,
          if_neg hvp, ← htot_def, if_neg hover]
        rw [hsum]; linarith [not_lt.mp hover]
      · simp only [KellyPositionSizer.optimize_portfolio, ← hvp_def,
          if_neg hvp, ← htot_def, if_neg hover]
        exact hsorted
      · simp only [KellyPositionSizer.optimize_portfolio, ← hvp_def,
          if_neg hvp, ← htot_def, if_neg hover]
        have hid : vp.map (KellyPositionSizer.scalePosition 1) = vp := by
          have h1 : KellyPositionSizer.scalePosition 1 = id := by
            funext p; cases p; simp [KellyPositionSizer.scalePosition]
          rw [h1, List.map_id]
        rw [hid]
        exact hperm

/-- Claim C4 witness: the portfolio `[⟨5,1,3⟩, ⟨7,1,9⟩]` with capital 6 and
minimum allocation 1 is de-leveraged to total allocation exactly 6. -/
theorem optimize_portfolio_spec_witness :
    ((KellyPositionSizer.optimize_portfolio
        [⟨5, 1, 3⟩, ⟨7, 1, 9⟩] 6 1).map (·.allocation)).sum ≤ 6 :=
  (optimize_portfolio_spec [⟨5, 1, 3⟩, ⟨7, 1, 9⟩] 6 1 (by norm_num)).1

/-- Claim C6: whenever `S0 ≥ H` (and `T > 0`, `σ > 0` as the claim
assumes), both implementations of the hit probability return exactly 1.
The result holds for every interpretation `P` of the numeric primitives,
so the barrier formula is not evaluated. -/
theorem hit_probability_one_when_breached :
    (∀ (P : MathPrims) (r S0 H T sigma mu : ℚ), H ≤ S0 → 0 < T → 0 < sigma →
      TheoreticalPricingEngine.barrier_hit_probability P r S0 H T sigma mu =
        .ok (.fin 1)) ∧
    (∀ (P : MathPrims) (S0 H T sigma r mu : ℚ), H ≤ S0 → 0 < T → 0 < sigma →
      VerifyMath.barrier_hit_probability P S0 H T sigma r mu = 1) := by
  constructor
  · intro P r S0 H T sigma mu h _ _
    simp [TheoreticalPricingEngine.barrier_hit_probability, h]
  · intro P S0 H T sigma r mu h _ _
    simp [VerifyMath.barrier_hit_probability, h]

/-- Claim C6 witness: both implementations at `S0 = 2 ≥ H = 1`,
`T = 1 > 0`, `σ = 1 > 0`. -/
theorem hit_probability_one_when_breached_witness :
    TheoreticalPricingEngine.barrier_hit_probability trivPrims 0 2 1 1 1 0 =
      .ok (.fin 1) ∧
    VerifyMath.barrier_hit_probability trivPrims 2 1 1 1 0 0 = 1 :=
  ⟨hit_probability_one_when_breached.1 trivPrims 0 2 1 1 1 0
      (by norm_num) (by norm_num) (by norm_num),
   hit_probability_one_when_breached.2 trivPrims 2 1 1 1 0 0
      (by norm_num) (by norm_num) (by norm_num)⟩

/-- Claim C3, counterexample: at `S0 = 1 < H = 2`, `T = 1`,
`σ = −1/2 ≤ 0`, `barrier_hit_probability` raises nothing: it returns
(`nan`, here under the trivial primitive interpretation), so the function
does not fail for non-positive volatility. -/
theorem hit_probability_no_error_on_nonpositive_sigma :
    TheoreticalPricingEngine.barrier_hit_probability
        trivPrims 0 1 2 1 (-(1/2)) 0 = .ok .nan ∧
    (-(1/2) : ℚ) ≤ 0 ∧ (1 : ℚ) < 2 := by
  refine ⟨?_, by norm_num, by norm_num⟩
  norm_num [TheoreticalPricingEngine.barrier_hit_probability, pydiv,
    Bind.bind, Except.instMonad, Except.bind,
    npLog, npSqrt, npExp, normCdf, trivPrims,
    npval_add_def, npval_sub_def, npval_mul_def, npval_div_def,
    npval_neg_def, NpVal.add, NpVal.sub, NpVal.mul, NpVal.div, NpVal.neg]

/-- Claim C3 (amended): `barrier_hit_probability` performs no input
validation.  With `S0 ≠ 0` and `σ ≠ 0` it never raises — for any `T`,
including `T ≤ 0` (the numpy operations produce `inf`/`nan` instead of
raising).  With `S0 < H` and `S0 ≠ 0`, `σ = 0` raises `ZeroDivisionError`
(not a dedicated `InvalidInput`).  In batch pricing the record whose
pricing raises is excluded from the output while every remaining record is
still processed: the batch equals the per-record pricing with failures
filtered out, and removing a failing record splits around it. -/
theorem batch_pricing_error_behavior :
    (∀ (P : MathPrims) (r S0 H T sigma mu : ℚ), S0 ≠ 0 → sigma ≠ 0 →
      ∃ v, TheoreticalPricingEngine.barrier_hit_probability
        P r S0 H T sigma mu = .ok v) ∧
    (∀ (P : MathPrims) (r S0 H T mu : ℚ), S0 < H → S0 ≠ 0 →
      TheoreticalPricingEngine.barrier_hit_probability P r S0 H T 0 mu =
        .error .zeroDivision) ∧
    (∀ (P : MathPrims) (r : ℚ)
      (pre post : List TheoreticalPricingEngine.MarketRec)
      (m : TheoreticalPricingEngine.MarketRec) (e : PyErr),
      TheoreticalPricingEngine.price_market P r m = .error e →
      TheoreticalPricingEngine.batch_price_markets P r (pre ++ m :: post) =
        TheoreticalPricingEngine.batch_price_markets P r pre ++
        TheoreticalPricingEngine.batch_price_markets P r post) ∧
    (∀ (P : MathPrims) (r : ℚ)
      (ms : List TheoreticalPricingEngine.MarketRec),
      TheoreticalPricingEngine.batch_price_markets P r ms =
        ms.filterMap
          (fun m => (TheoreticalPricingEngine.price_market P r m).toOption)) := by
  refine ⟨?_, ?_, ?_, ?_⟩
  · intro P r S0 H T sigma mu hS0 hsigma
    by_cases hb : S0 ≥ H
    · exact ⟨.fin 1, by
        simp [TheoreticalPricingEngine.barrier_hit_probability, hb]⟩
    · exact ⟨_, by
        simp [TheoreticalPricingEngine.barrier_hit_probability, hb, pydiv,
          hS0, hsigma]; rfl⟩
  · intro P r S0 H T mu hlt hS0
    have hb : ¬ S0 ≥ H := not_le.mpr hlt
    simp [TheoreticalPricingEngine.barrier_hit_probability, hb, pydiv, hS0]
    rfl
  · intro P r pre post m e he
    induction pre with
    | nil =>
      simp [TheoreticalPricingEngine.batch_price_markets, he]
    | cons q qs ih =>
      simp only [List.cons_append, TheoreticalPricingEngine.batch_price_markets]
      cases TheoreticalPricingEngine.price_market P r q <;>
        simp [ih]
  · intro P r ms
    induction ms with
    | nil => rfl
    | cons m ms ih =>
      simp only [TheoreticalPricingEngine.batch_price_markets,
        List.filterMap_cons]
      cases hm : TheoreticalPricingEngine.price_market P r m <;>
        simp [hm, Except.toOption, ih]

/-- Claim C3 witness: the amended statement at concrete inputs — σ = 1
never raises, σ = 0 raises, and a batch containing one failing record
(σ = 0) and one good record keeps only (and exactly) the good one's
result. -/
theorem batch_pricing_error_behavior_witness :
    (∃ v, TheoreticalPricingEngine.barrier_hit_probability
      trivPrims 0 1 2 1 1 0 = .ok v) ∧
    TheoreticalPricingEngine.barrier_hit_probability trivPrims 0 1 2 1 0 0 =
      .error .zeroDivision ∧
    TheoreticalPricingEngine.batch_price_markets trivPrims 0
        [⟨"BTC", 1, 2, 365, 0⟩, ⟨"BTC", 2, 1, 365, 1⟩] =
      TheoreticalPricingEngine.batch_price_markets trivPrims 0 [] ++
        TheoreticalPricingEngine.batch_price_markets trivPrims 0
          [⟨"BTC", 2, 1, 365, 1⟩] := by
  refine ⟨batch_pricing_error_behavior.1 trivPrims 0 1 2 1 1 0
      (by norm_num) (by norm_num), ?_, ?_⟩
  · exact batch_pricing_error_behavior.2.1 trivPrims 0 1 2 1 0
      (by norm_num) (by norm_num)
  · refine batch_pricing_error_behavior.2.2.1 trivPrims 0 []
      [⟨"BTC", 2, 1, 365, 1⟩] ⟨"BTC", 1, 2, 365, 0⟩ .zeroDivision ?_
    norm_num [TheoreticalPricingEngine.price_market,
      TheoreticalPricingEngine.barrier_hit_probability, pydiv,
      Bind.bind, Except.instMonad, Except.bind]

/-- The price update performed by one simulator iteration does not depend
on the rebalancing branch taken. -/
theorem simStep_St (P : MathPrims) (prm : VerifyMath.SimParams)
    (fee_rate : ℚ) (freq : Option ℕ) (dW : ℚ) (k : ℕ)
    (s : VerifyMath.PathState) :
    (VerifyMath.simStep P prm fee_rate freq dW k s).St =
      VerifyMath.gbmStep P prm.sigma dW s.St := by
  rcases freq with _ | f
  · rfl
  · simp only [VerifyMath.simStep]
    split_ifs <;> rfl

/-- The running-maximum update performed by one simulator iteration does
not depend on the rebalancing branch taken. -/
theorem simStep_max (P : MathPrims) (prm : VerifyMath.SimParams)
    (fee_rate : ℚ) (freq : Option ℕ) (dW : ℚ) (k : ℕ)
    (s : VerifyMath.PathState) :
    (VerifyMath.simStep P prm fee_rate freq dW k s).max_price =
      max s.max_price (VerifyMath.gbmStep P prm.sigma dW s.St) := by
  rcases freq with _ | f
  · rfl
  · simp only [VerifyMath.simStep]
    split_ifs <;> rfl

/-- After any number of iterations, the state's `max_price` field equals
the maximum of the starting `max_price` and every price visited along the
way: it is the path's running maximum. -/
theorem runSteps_max (P : MathPrims) (prm : VerifyMath.SimParams)
    (fee_rate : ℚ) (freq : Option ℕ) (d : ℕ → ℚ) :
    ∀ (m k : ℕ) (s : VerifyMath.PathState),
      (VerifyMath.runSteps P prm fee_rate freq d m k s).max_price =
        (VerifyMath.pricePath P prm.sigma d m k s.St).foldl
          max s.max_price := by
  intro m
  induction m with
  | zero => intro k s; rfl
  | succ m ih =>
    intro k s
    simp only [VerifyMath.runSteps, VerifyMath.pricePath]
    rw [ih (k + 1) _, simStep_St, simStep_max]
    simp [List.foldl_cons]

/-- Claim C7: on every simulated path, settlement sets `hit` exactly when
the running maximum price (which indeed aggregates `S0` and every visited
price) reaches the barrier `H`; the option-leg PnL is `shares·1 − cost`
when hit and `−cost` otherwise; the hedge-leg PnL is
`−hedgeNotional·(S_T − S0)`; and the total PnL is option-leg plus
hedge-leg minus the accumulated fees. -/
theorem simulate_path_settlement (P : MathPrims)
    (prm : VerifyMath.SimParams) (fee_rate : ℚ) (freq : Option ℕ)
    (normals : ℕ → ℚ) (p : ℕ) :
    (VerifyMath.simulate_path P prm fee_rate freq normals p).hit =
      decide (prm.H ≤
        (VerifyMath.simulate_path P prm fee_rate freq normals p).max_price) ∧
    (VerifyMath.simulate_path P prm fee_rate freq normals p).bet_pnl =
      (if prm.H ≤
          (VerifyMath.simulate_path P prm fee_rate freq normals p).max_price
       then prm.num_shares * 1 - prm.cost_usd else -prm.cost_usd) ∧
    (VerifyMath.simulate_path P prm fee_rate freq normals p).hedge_pnl =
      -(VerifyMath.pathFinalState P prm fee_rate freq normals p).hedge_position *
        ((VerifyMath.simulate_path P prm fee_rate freq normals p).final_price -
          prm.S0) ∧
    (VerifyMath.simulate_path P prm fee_rate freq normals p).total_pnl =
      (VerifyMath.simulate_path P prm fee_rate freq normals p).bet_pnl +
        (VerifyMath.simulate_path P prm fee_rate freq normals p).hedge_pnl -
        (VerifyMath.simulate_path P prm fee_rate freq normals p).fees ∧
    (VerifyMath.simulate_path P prm fee_rate freq normals p).max_price =
      (VerifyMath.pricePath P prm.sigma
        (fun k => normals (p * VerifyMath.nSteps prm.T + k))
        (VerifyMath.nSteps prm.T) 0 prm.S0).foldl max prm.S0 := by
  refine ⟨rfl, ?_, rfl, rfl, ?_⟩
  · simp only [VerifyMath.simulate_path, decide_eq_true_eq]
  · simpa [VerifyMath.pathFinalState, VerifyMath.initState,
      VerifyMath.simulate_path] using
      runSteps_max P prm fee_rate freq
        (fun k => normals (p * VerifyMath.nSteps prm.T + k))
        (VerifyMath.nSteps prm.T) 0 (VerifyMath.initState prm fee_rate)

/-- The inner loop only consults the draw stream at the step indices it
executes: agreeing streams give identical states. -/
theorem runSteps_congr (P : MathPrims) (prm : VerifyMath.SimParams)
    (fee_rate : ℚ) (freq : Option ℕ) (d1 d2 : ℕ → ℚ) :
    ∀ (m k : ℕ) (s : VerifyMath.PathState),
      (∀ j, k ≤ j → j < k + m → d1 j = d2 j) →
      VerifyMath.runSteps P prm fee_rate freq d1 m k s =
        VerifyMath.runSteps P prm fee_rate freq d2 m k s := by
  intro m
  induction m with
  | zero => intro k s _; rfl
  | succ m ih =>
    intro k s h
    simp only [VerifyMath.runSteps]
    rw [h k (le_refl k) (by omega)]
    exact ih (k + 1) _ (fun j hj1 hj2 => h j (by omega) (by omega))

/-- A single path depends only on the draws in its own slice of the
stream. -/
theorem simulate_path_congr (P : MathPrims) (prm : VerifyMath.SimParams)
    (fee_rate : ℚ) (freq : Option ℕ) (p : ℕ) (d1 d2 : ℕ → ℚ)
    (h : ∀ k, k < VerifyMath.nSteps prm.T →
      d1 (p * VerifyMath.nSteps prm.T + k) =
        d2 (p * VerifyMath.nSteps prm.T + k)) :
    VerifyMath.simulate_path P prm fee_rate freq d1 p =
      VerifyMath.simulate_path P prm fee_rate freq d2 p := by
  have hs : VerifyMath.pathFinalState P prm fee_rate freq d1 p =
      VerifyMath.pathFinalState P prm fee_rate freq d2 p := by
    unfold VerifyMath.pathFinalState
    exact runSteps_congr P prm fee_rate freq _ _
      (VerifyMath.nSteps prm.T) 0 (VerifyMath.initState prm fee_rate)
      (fun j hj1 hj2 => h j (by omega))
  simp only [VerifyMath.simulate_path, hs]

/-- Claim C8: the Monte-Carlo simulator is deterministic in its random
stream — two runs whose streams agree on the `num_paths · n_steps` draws
actually consumed produce identical per-path results (hence identical
aggregate statistics); and each path's result depends only on the draws of
its own per-path slice, so the generation is independently seedable /
replayable per run and per path. -/
theorem simulate_hedged_pnl_deterministic :
    (∀ (P : MathPrims) (prm : VerifyMath.SimParams) (num_paths : ℕ)
      (fee_rate : ℚ) (freq : Option ℕ) (d1 d2 : ℕ → ℚ),
      (∀ i, i < num_paths * VerifyMath.nSteps prm.T → d1 i = d2 i) →
      VerifyMath.simulate_hedged_pnl P prm num_paths fee_rate freq d1 =
        VerifyMath.simulate_hedged_pnl P prm num_paths fee_rate freq d2) ∧
    (∀ (P : MathPrims) (prm : VerifyMath.SimParams) (fee_rate : ℚ)
      (freq : Option ℕ) (p : ℕ) (d1 d2 : ℕ → ℚ),
      (∀ k, k < VerifyMath.nSteps prm.T →
        d1 (p * VerifyMath.nSteps prm.T + k) =
          d2 (p * VerifyMath.nSteps prm.T + k)) →
      VerifyMath.simulate_path P prm fee_rate freq d1 p =
        VerifyMath.simulate_path P prm fee_rate freq d2 p) := by
  constructor
  · intro P prm n fee freq d1 d2 h
    unfold VerifyMath.simulate_hedged_pnl
    apply List.map_congr_left
    intro p hp
    have hpn : p < n := List.mem_range.mp hp
    apply simulate_path_congr
    intro k hk
    apply h
    calc p * VerifyMath.nSteps prm.T + k
        < p * VerifyMath.nSteps prm.T + VerifyMath.nSteps prm.T := by omega
      _ = (p + 1) * VerifyMath.nSteps prm.T := by ring
      _ ≤ n * VerifyMath.nSteps prm.T :=
          Nat.mul_le_mul_right _ (by omega)
  · intro P prm fee freq p d1 d2 h
    exact simulate_path_congr P prm fee freq p d1 d2 h

/-- Claim C8 witness: two literally identical runs coincide. -/
theorem simulate_hedged_pnl_deterministic_witness :
    VerifyMath.simulate_hedged_pnl trivPrims ⟨1, 2, 1, 1, 1, 1, 1⟩ 1 0 none
        (fun _ => 0) =
      VerifyMath.simulate_hedged_pnl trivPrims ⟨1, 2, 1, 1, 1, 1, 1⟩ 1 0 none
        (fun _ => 0) :=
  simulate_hedged_pnl_deterministic.1 trivPrims ⟨1, 2, 1, 1, 1, 1, 1⟩ 1 0
    none (fun _ => 0) (fun _ => 0) (fun _ _ => rfl)

/-- The inner loop only ever appends to the growing group. -/
theorem growGroup_append (a : String) (m : ℤ) (k : ℕ) :
    ∀ (rest : List (ℕ × StrategyGrouper.Opp))
      (g : List StrategyGrouper.Opp) (pr : List ℕ),
      ∃ ext, (StrategyGrouper.growGroup a m k rest g pr).1 = g ++ ext := by
  intro rest
  induction rest with
  | nil => intro g pr; exact ⟨[], by simp [StrategyGrouper.growGroup]⟩
  | cons jb rest ih =>
    obtain ⟨j, b⟩ := jb
    intro g pr
    simp only [StrategyGrouper.growGroup]
    by_cases h1 : j ∈ pr
    · rw [if_pos h1]; exact ih g pr
    · rw [if_neg h1]
      by_cases h2 : b.asset ≠ a
      · rw [if_pos h2]; exact ih g pr
      · rw [if_neg h2]
        by_cases h3 : 1 < |StrategyGrouper.daysDiff m b.maturity|
        · rw [if_pos h3]; exact ih g pr
        · rw [if_neg h3]
          by_cases hc : ¬ ("BET_YES" ∈ StrategyGrouper.recs g ∧
              "BET_NO" ∈ StrategyGrouper.recs g) ∧
              b.recommendation ∉ StrategyGrouper.recs g
          · simp only [if_pos hc]
            by_cases hcap : k ≤ (g ++ [b]).length
            · rw [if_pos hcap]; exact ⟨[b], rfl⟩
            · rw [if_neg hcap]
              obtain ⟨ext, he⟩ := ih (g ++ [b]) (j :: pr)
              exact ⟨[b] ++ ext, by rw [he, List.append_assoc]⟩
          · simp only [if_neg hc]
            by_cases hcap : k ≤ g.length
            · rw [if_pos hcap]; exact ⟨[], by simp⟩
            · rw [if_neg hcap]; exact ih g pr

/-- Members of the group survive the rest of the inner loop. -/
theorem growGroup_sub (a : String) (m : ℤ) (k : ℕ)
    (rest : List (ℕ × StrategyGrouper.Opp))
    (g : List StrategyGrouper.Opp) (pr : List ℕ)
    {x : StrategyGrouper.Opp} (hx : x ∈ g) :
    x ∈ (StrategyGrouper.growGroup a m k rest g pr).1 := by
  obtain ⟨ext, he⟩ := growGroup_append a m k rest g pr
  rw [he]; exact List.mem_append_left _ hx

/-- Recommendations represented in the group survive the rest of the
inner loop. -/
theorem growGroup_recs_sub (a : String) (m : ℤ) (k : ℕ)
    (rest : List (ℕ × StrategyGrouper.Opp))
    (g : List StrategyGrouper.Opp) (pr : List ℕ)
    {s : String} (hs : s ∈ StrategyGrouper.recs g) :
    s ∈ StrategyGrouper.recs (StrategyGrouper.growGroup a m k rest g pr).1 := by
  obtain ⟨o, ho, rfl⟩ := List.mem_map.mp hs
  exact List.mem_map.mpr ⟨o, growGroup_sub a m k rest g pr ho, rfl⟩

/-- Every member of the grown group has the seed's asset. -/
theorem growGroup_asset (a : String) (m : ℤ) (k : ℕ) :
    ∀ (rest : List (ℕ × StrategyGrouper.Opp))
      (g : List StrategyGrouper.Opp) (pr : List ℕ),
      (∀ x ∈ g, x.asset = a) →
      ∀ x ∈ (StrategyGrouper.growGroup a m k rest g pr).1, x.asset = a := by
  intro rest
  induction rest with
  | nil => intro g pr hg; simpa [StrategyGrouper.growGroup] using hg
  | cons jb rest ih =>
    obtain ⟨j, b⟩ := jb
    intro g pr hg
    simp only [StrategyGrouper.growGroup]
    by_cases h1 : j ∈ pr
    · rw [if_pos h1]; exact ih g pr hg
    · rw [if_neg h1]
      by_cases h2 : b.asset ≠ a
      · rw [if_pos h2]; exact ih g pr hg
      · rw [if_neg h2]
        by_cases h3 : 1 < |StrategyGrouper.daysDiff m b.maturity|
        · rw [if_pos h3]; exact ih g pr hg
        · rw [if_neg h3]
          have hba : b.asset = a := not_not.mp h2
          have hg' : ∀ x ∈ g ++ [b], x.asset = a := by
            intro x hx
            rcases List.mem_append.mp hx with hx | hx
            · exact hg x hx
            · simp only [List.mem_singleton] at hx; rw [hx]; exact hba
          by_cases hc : ¬ ("BET_YES" ∈ StrategyGrouper.recs g ∧
              "BET_NO" ∈ StrategyGrouper.recs g) ∧
              b.recommendation ∉ StrategyGrouper.recs g
          · simp only [if_pos hc]
            by_cases hcap : k ≤ (g ++ [b]).length
            · rw [if_pos hcap]; exact hg'
            · rw [if_neg hcap]; exact ih (g ++ [b]) (j :: pr) hg'
          · simp only [if_neg hc]
            by_cases hcap : k ≤ g.length
            · rw [if_pos hcap]; exact hg
            · rw [if_neg hcap]; exact ih g pr hg

/-- The grown group never repeats a recommendation: candidates are added
only when their recommendation is not yet represented. -/
theorem growGroup_nodup (a : String) (m : ℤ) (k : ℕ) :
    ∀ (rest : List (ℕ × StrategyGrouper.Opp))
      (g : List StrategyGrouper.Opp) (pr : List ℕ),
      (StrategyGrouper.recs g).Nodup →
      (StrategyGrouper.recs
        (StrategyGrouper.growGroup a m k rest g pr).1).Nodup := by
  intro rest
  induction rest with
  | nil => intro g pr hg; simpa [StrategyGrouper.growGroup] using hg
  | cons jb rest ih =>
    obtain ⟨j, b⟩ := jb
    intro g pr hg
    simp only [StrategyGrouper.growGroup]
    by_cases h1 : j ∈ pr
    · rw [if_pos h1]; exact ih g pr hg
    · rw [if_neg h1]
      by_cases h2 : b.asset ≠ a
      · rw [if_pos h2]; exact ih g pr hg
      · rw [if_neg h2]
        by_cases h3 : 1 < |StrategyGrouper.daysDiff m b.maturity|
        · rw [if_pos h3]; exact ih g pr hg
        · rw [if_neg h3]
          by_cases hc : ¬ ("BET_YES" ∈ StrategyGrouper.recs g ∧
              "BET_NO" ∈ StrategyGrouper.recs g) ∧
              b.recommendation ∉ StrategyGrouper.recs g
          · have hg' : (StrategyGrouper.recs (g ++ [b])).Nodup := by
              simp only [StrategyGrouper.recs, List.map_append,
                List.map_cons, List.map_nil]
              rw [List.nodup_append]
              refine ⟨hg, List.nodup_singleton _, ?_⟩
              intro s hs hs'
              simp only [List.mem_singleton] at hs'
              rw [hs'] at hs
              exact hc.2 hs
            simp only [if_pos hc]
            by_cases hcap : k ≤ (g ++ [b]).length
            · rw [if_pos hcap]; exact hg'
            · rw [if_neg hcap]; exact ih (g ++ [b]) (j :: pr) hg'
          · simp only [if_neg hc]
            by_cases hcap : k ≤ g.length
            · rw [if_pos hcap]; exact hg
            · rw [if_neg hcap]; exact ih g pr hg

/-- Indices already processed stay processed through the inner loop. -/
theorem growGroup_processed_sub (a : String) (m : ℤ) (k : ℕ) :
    ∀ (rest : List (ℕ × StrategyGrouper.Opp))
      (g : List StrategyGrouper.Opp) (pr : List ℕ),
      ∀ i ∈ pr, i ∈ (StrategyGrouper.growGroup a m k rest g pr).2 := by
  intro rest
  induction rest with
  | nil => intro g pr i hi; simpa [StrategyGrouper.growGroup] using hi
  | cons jb rest ih =>
    obtain ⟨j, b⟩ := jb
    intro g pr i hi
    simp only [StrategyGrouper.growGroup]
    by_cases h1 : j ∈ pr
    · rw [if_pos h1]; exact ih g pr i hi
    · rw [if_neg h1]
      by_cases h2 : b.asset ≠ a
      · rw [if_pos h2]; exact ih g pr i hi
      · rw [if_neg h2]
        by_cases h3 : 1 < |StrategyGrouper.daysDiff m b.maturity|
        · rw [if_pos h3]; exact ih g pr i hi
        · rw [if_neg h3]
          by_cases hc : ¬ ("BET_YES" ∈ StrategyGrouper.recs g ∧
              "BET_NO" ∈ StrategyGrouper.recs g) ∧
              b.recommendation ∉ StrategyGrouper.recs g
          · simp only [if_pos hc]
            by_cases hcap : k ≤ (g ++ [b]).length
            · rw [if_pos hcap]; exact List.mem_cons_of_mem _ hi
            · rw [if_neg hcap]
              exact ih (g ++ [b]) (j :: pr) i (List.mem_cons_of_mem _ hi)
          · simp only [if_neg hc]
            by_cases hcap : k ≤ g.length
            · rw [if_pos hcap]; exact hi
            · rw [if_neg hcap]; exact ih g pr i hi

/-- An index processed by the inner loop was either processed before, or
belongs to a row scanned by it whose opportunity was put in the group. -/
theorem growGroup_processed_new (a : String) (m : ℤ) (k : ℕ) :
    ∀ (rest : List (ℕ × StrategyGrouper.Opp))
      (g : List StrategyGrouper.Opp) (pr : List ℕ) (i : ℕ),
      i ∈ (StrategyGrouper.growGroup a m k rest g pr).2 →
      i ∈ pr ∨ ∃ b, (i, b) ∈ rest ∧
        b ∈ (StrategyGrouper.growGroup a m k rest g pr).1 := by
  intro rest
  induction rest with
  | nil =>
    intro g pr i hi
    exact Or.inl (by simpa [StrategyGrouper.growGroup] using hi)
  | cons jb rest ih =>
    obtain ⟨j, b⟩ := jb
    intro g pr i hi
    simp only [StrategyGrouper.growGroup] at hi ⊢
    by_cases h1 : j ∈ pr
    · rw [if_pos h1] at hi ⊢
      rcases ih g pr i hi with h | ⟨c, hc1, hc2⟩
      · exact Or.inl h
      · exact Or.inr ⟨c, List.mem_cons_of_mem _ hc1, hc2⟩
    · rw [if_neg h1] at hi ⊢
      by_cases h2 : b.asset ≠ a
      · rw [if_pos h2] at hi ⊢
        rcases ih g pr i hi with h | ⟨c, hc1, hc2⟩
        · exact Or.inl h
        · exact Or.inr ⟨c, List.mem_cons_of_mem _ hc1, hc2⟩
      · rw [if_neg h2] at hi ⊢
        by_cases h3 : 1 < |StrategyGrouper.daysDiff m b.maturity|
        · rw [if_pos h3] at hi ⊢
          rcases ih g pr i hi with h | ⟨c, hc1, hc2⟩
          · exact Or.inl h
          · exact Or.inr ⟨c, List.mem_cons_of_mem _ hc1, hc2⟩
        · rw [if_neg h3] at hi ⊢
          by_cases hc : ¬ ("BET_YES" ∈ StrategyGrouper.recs g ∧
              "BET_NO" ∈ StrategyGrouper.recs g) ∧
              b.recommendation ∉ StrategyGrouper.recs g
          · simp only [if_pos hc] at hi ⊢
            by_cases hcap : k ≤ (g ++ [b]).length
            · rw [if_pos hcap] at hi ⊢
              rcases List.mem_cons.mp hi with h | h
              · subst h
                exact Or.inr ⟨b, List.mem_cons_self _ _,
                  List.mem_append_right _ (List.mem_singleton_self _)⟩
              · exact Or.inl h
            · rw [if_neg hcap] at hi ⊢
              rcases ih (g ++ [b]) (j :: pr) i hi with h | ⟨c, hc1, hc2⟩
              · rcases List.mem_cons.mp h with h' | h'
                · subst h'
                  exact Or.inr ⟨b, List.mem_cons_self _ _,
                    growGroup_sub a m k rest (g ++ [b]) _
                      (List.mem_append_right _ (List.mem_singleton_self _))⟩
                · exact Or.inl h'
              · exact Or.inr ⟨c, List.mem_cons_of_mem _ hc1, hc2⟩
          · simp only [if_neg hc] at hi ⊢
            by_cases hcap : k ≤ g.length
            · rw [if_pos hcap] at hi ⊢; exact Or.inl hi
            · rw [if_neg hcap] at hi ⊢
              rcases ih g pr i hi with h | ⟨c, hc1, hc2⟩
              · exact Or.inl h
              · exact Or.inr ⟨c, List.mem_cons_of_mem _ hc1, hc2⟩

/-- Completeness of the inner loop: a scanned row holding an unprocessed,
same-asset opportunity within the maturity window is put into the group
whenever the loop finishes below the size cap — unless its recommendation
ends up represented in the group anyway, or the group holds both a
`BET_YES` and a `BET_NO`. -/
theorem growGroup_complete (a : String) (m : ℤ) (k : ℕ) :
    ∀ (rest : List (ℕ × StrategyGrouper.Opp))
      (g : List StrategyGrouper.Opp) (pr : List ℕ) (i : ℕ)
      (b : StrategyGrouper.Opp),
      (rest.map Prod.fst).Nodup →
      (i, b) ∈ rest →
      b.asset = a →
      ¬ (1 < |StrategyGrouper.daysDiff m b.maturity|) →
      (StrategyGrouper.growGroup a m k rest g pr).1.length < k →
      i ∈ pr ∨ b ∈ (StrategyGrouper.growGroup a m k rest g pr).1 ∨
        b.recommendation ∈
          StrategyGrouper.recs (StrategyGrouper.growGroup a m k rest g pr).1 ∨
        ("BET_YES" ∈
            StrategyGrouper.recs (StrategyGrouper.growGroup a m k rest g pr).1 ∧
         "BET_NO" ∈
            StrategyGrouper.recs (StrategyGrouper.growGroup a m k rest g pr).1) := by
  intro rest
  induction rest with
  | nil => intro g pr i b _ hib _ _ _; exact absurd hib (List.not_mem_nil _)
  | cons jc rest ih =>
    obtain ⟨j, c⟩ := jc
    intro g pr i b hnd hib hasset hwin hlen
    have hnd' : (rest.map Prod.fst).Nodup := by
      simpa using (List.nodup_cons.mp (by simpa using hnd)).2
    simp only [StrategyGrouper.growGroup] at hlen ⊢
    by_cases h1 : j ∈ pr
    · rw [if_pos h1] at hlen ⊢
      rcases List.mem_cons.mp hib with he | hib'
      · rw [Prod.mk.injEq] at he
        obtain ⟨hij, hbc⟩ := he
        exact Or.inl (by rw [hij]; exact h1)
      · exact ih g pr i b hnd' hib' hasset hwin hlen
    · rw [if_neg h1] at hlen ⊢
      by_cases h2 : c.asset ≠ a
      · rw [if_pos h2] at hlen ⊢
        rcases List.mem_cons.mp hib with he | hib'
        · rw [Prod.mk.injEq] at he
          obtain ⟨hij, hbc⟩ := he
          exact absurd (hbc ▸ hasset) h2
        · exact ih g pr i b hnd' hib' hasset hwin hlen
      · rw [if_neg h2] at hlen ⊢
        by_cases h3 : 1 < |StrategyGrouper.daysDiff m c.maturity|
        · rw [if_pos h3] at hlen ⊢
          rcases List.mem_cons.mp hib with he | hib'
          · rw [Prod.mk.injEq] at he
            obtain ⟨hij, hbc⟩ := he
            exact absurd (hbc ▸ h3) hwin
          · exact ih g pr i b hnd' hib' hasset hwin hlen
        · rw [if_neg h3] at hlen ⊢
          by_cases hc : ¬ ("BET_YES" ∈ StrategyGrouper.recs g ∧
              "BET_NO" ∈ StrategyGrouper.recs g) ∧
              c.recommendation ∉ StrategyGrouper.recs g
          · simp only [if_pos hc] at hlen ⊢
            by_cases hcap : k ≤ (g ++ [c]).length
            · rw [if_pos hcap] at hlen ⊢
              exact absurd hlen (not_lt.mpr hcap)
            · rw [if_neg hcap] at hlen ⊢
              rcases List.mem_cons.mp hib with he | hib'
              · rw [Prod.mk.injEq] at he
                obtain ⟨hij, hbc⟩ := he
                refine Or.inr (Or.inl ?_)
                rw [hbc]
                exact growGroup_sub a m k rest (g ++ [c]) _
                  (List.mem_append_right _ (List.mem_singleton_self _))
              · have hjnot : j ∉ rest.map Prod.fst :=
                  (List.nodup_cons.mp (by simpa using hnd)).1
                have hres := ih (g ++ [c]) (j :: pr) i b hnd' hib' hasset
                  hwin hlen
                rcases hres with h | h | h | h
                · rcases List.mem_cons.mp h with h' | h'
                  · exfalso
                    apply hjnot
                    rw [← h']
                    exact List.mem_map_of_mem Prod.fst hib'
                  · exact Or.inl h'
                · exact Or.inr (Or.inl h)
                · exact Or.inr (Or.inr (Or.inl h))
                · exact Or.inr (Or.inr (Or.inr h))
          · simp only [if_neg hc] at hlen ⊢
            by_cases hcap : k ≤ g.length
            · rw [if_pos hcap] at hlen ⊢
              exact absurd hlen (not_lt.mpr hcap)
            · rw [if_neg hcap] at hlen ⊢
              rcases List.mem_cons.mp hib with he | hib'
              · rw [Prod.mk.injEq] at he
                obtain ⟨hij, hbc⟩ := he
                rcases not_and_or.mp hc with h | h
                · have hboth := not_not.mp h
                  exact Or.inr (Or.inr (Or.inr
                    ⟨growGroup_recs_sub a m k rest g pr hboth.1,
                     growGroup_recs_sub a m k rest g pr hboth.2⟩))
                · have hr := not_not.mp h
                  refine Or.inr (Or.inr (Or.inl ?_))
                  rw [hbc]
                  exact growGroup_recs_sub a m k rest g pr hr
              · exact ih g pr i b hnd' hib' hasset hwin hlen

/-- Every opportunity of the row list appears at some index. -/
theorem indexList_mem :
    ∀ (l : List StrategyGrouper.Opp) (n : ℕ) (b : StrategyGrouper.Opp),
      b ∈ l → ∃ i, (i, b) ∈ StrategyGrouper.indexList n l := by
  intro l
  induction l with
  | nil => intro n b hb; exact absurd hb (List.not_mem_nil _)
  | cons a l ih =>
    intro n b hb
    rcases List.mem_cons.mp hb with h | h
    · exact ⟨n, by rw [h]; exact List.mem_cons_self _ _⟩
    · obtain ⟨i, hi⟩ := ih (n + 1) b h
      exact ⟨i, List.mem_cons_of_mem _ hi⟩

/-- Indices in `indexList n l` are at least `n`. -/
theorem indexList_fst_ge :
    ∀ (l : List StrategyGrouper.Opp) (n i : ℕ) (b : StrategyGrouper.Opp),
      (i, b) ∈ StrategyGrouper.indexList n l → n ≤ i := by
  intro l
  induction l with
  | nil =>
    intro n i b h
    exact absurd h (by simp [StrategyGrouper.indexList])
  | cons a l ih =>
    intro n i b h
    simp only [StrategyGrouper.indexList] at h
    rcases List.mem_cons.mp h with h' | h'
    · rw [Prod.mk.injEq] at h'
      omega
    · have := ih (n + 1) i b h'
      omega

/-- The indices of `indexList n l` are pairwise distinct. -/
theorem indexList_fst_nodup :
    ∀ (l : List StrategyGrouper.Opp) (n : ℕ),
      ((StrategyGrouper.indexList n l).map Prod.fst).Nodup := by
  intro l
  induction l with
  | nil => intro n; simp [StrategyGrouper.indexList]
  | cons a l ih =>
    intro n
    simp only [StrategyGrouper.indexList, List.map_cons]
    rw [List.nodup_cons]
    refine ⟨?_, ih (n + 1)⟩
    intro hmem
    obtain ⟨⟨i, b⟩, hib, hfst⟩ := List.mem_map.mp hmem
    have := indexList_fst_ge l (n + 1) i b hib
    simp only at hfst
    omega

/-- In a list of index-value pairs with pairwise-distinct indices, the
index determines the value. -/
theorem fst_nodup_mem_inj :
    ∀ (L : List (ℕ × StrategyGrouper.Opp)),
      (L.map Prod.fst).Nodup →
      ∀ (i : ℕ) (b c : StrategyGrouper.Opp),
        (i, b) ∈ L → (i, c) ∈ L → b = c := by
  intro L
  induction L with
  | nil => intro _ i b c hb _; exact absurd hb (List.not_mem_nil _)
  | cons hd L ih =>
    obtain ⟨j, d⟩ := hd
    intro hnd i b c hb hc
    have hjnot : j ∉ L.map Prod.fst := (List.nodup_cons.mp (by simpa using hnd)).1
    have hnd' : (L.map Prod.fst).Nodup := (List.nodup_cons.mp (by simpa using hnd)).2
    rcases List.mem_cons.mp hb with h | h <;> rcases List.mem_cons.mp hc with h' | h'
    · rw [Prod.mk.injEq] at h h'
      rw [h.2, h'.2]
    · rw [Prod.mk.injEq] at h
      exfalso
      apply hjnot
      rw [← h.1]
      exact List.mem_map_of_mem Prod.fst h'
    · rw [Prod.mk.injEq] at h'
      exfalso
      apply hjnot
      rw [← h'.1]
      exact List.mem_map_of_mem Prod.fst h
    · exact ih hnd' i b c h h'

/-- Every group emitted by the outer loop has all members on a single
asset (the seed's). -/
theorem groupLoop_asset (all : List (ℕ × StrategyGrouper.Opp))
    (minO maxO : ℕ) :
    ∀ (rest : List (ℕ × StrategyGrouper.Opp)) (pr : List ℕ)
      (g : List StrategyGrouper.Opp),
      g ∈ StrategyGrouper.groupLoop all minO maxO rest pr →
      ∀ x ∈ g, ∀ y ∈ g, x.asset = y.asset := by
  intro rest
  induction rest with
  | nil =>
    intro pr g hg
    exact absurd hg (by simp [StrategyGrouper.groupLoop])
  | cons ja rest ih =>
    obtain ⟨j, a⟩ := ja
    intro pr g hg
    simp only [StrategyGrouper.groupLoop] at hg
    by_cases h1 : j ∈ pr
    · rw [if_pos h1] at hg; exact ih pr g hg
    · rw [if_neg h1] at hg
      by_cases hmin : minO ≤ (StrategyGrouper.growGroup a.asset a.maturity
          maxO all [a] (j :: pr)).1.length
      · rw [if_pos hmin] at hg
        rcases List.mem_cons.mp hg with h | h
        · have hall := growGroup_asset a.asset a.maturity maxO all [a]
            (j :: pr) (by intro x hx; rw [List.mem_singleton.mp hx])
          intro x hx y hy
          rw [h] at hx hy
          rw [hall x hx, hall y hy]
        · exact ih _ g h
      · rw [if_neg hmin] at hg
        exact ih _ g hg

/-- Every group emitted by the outer loop has pairwise-distinct
recommendations. -/
theorem groupLoop_nodup (all : List (ℕ × StrategyGrouper.Opp))
    (minO maxO : ℕ) :
    ∀ (rest : List (ℕ × StrategyGrouper.Opp)) (pr : List ℕ)
      (g : List StrategyGrouper.Opp),
      g ∈ StrategyGrouper.groupLoop all minO maxO rest pr →
      (StrategyGrouper.recs g).Nodup := by
  intro rest
  induction rest with
  | nil =>
    intro pr g hg
    exact absurd hg (by simp [StrategyGrouper.groupLoop])
  | cons ja rest ih =>
    obtain ⟨j, a⟩ := ja
    intro pr g hg
    simp only [StrategyGrouper.groupLoop] at hg
    by_cases h1 : j ∈ pr
    · rw [if_pos h1] at hg; exact ih pr g hg
    · rw [if_neg h1] at hg
      by_cases hmin : minO ≤ (StrategyGrouper.growGroup a.asset a.maturity
          maxO all [a] (j :: pr)).1.length
      · rw [if_pos hmin] at hg
        rcases List.mem_cons.mp hg with h | h
        · rw [h]
          exact growGroup_nodup a.asset a.maturity maxO all [a] (j :: pr)
            (by simp [StrategyGrouper.recs])
        · exact ih _ g h
      · rw [if_neg hmin] at hg
        exact ih _ g hg

/-- Splitting characterization of the outer loop (minimum group size 1,
the scanner's configuration): when a group `a :: grest` of the output is
below the size cap, any opportunity in the scanned rows matching the
group's seed `a` on asset and maturity window is either in that group, in
a group emitted earlier, already processed when the loop started, or was
excluded by the mixed-side rules (its recommendation represented in the
group, or both sides already present). -/
theorem groupLoop_split (all : List (ℕ × StrategyGrouper.Opp)) (maxO : ℕ)
    (hnd : (all.map Prod.fst).Nodup) :
    ∀ (rest : List (ℕ × StrategyGrouper.Opp)) (pr : List ℕ)
      (pre post : List (List StrategyGrouper.Opp))
      (a : StrategyGrouper.Opp) (grest : List StrategyGrouper.Opp)
      (i : ℕ) (b : StrategyGrouper.Opp),
      (∀ x ∈ rest, x ∈ all) →
      StrategyGrouper.groupLoop all 1 maxO rest pr =
        pre ++ (a :: grest) :: post →
      (i, b) ∈ all →
      b.asset = a.asset →
      ¬ (1 < |StrategyGrouper.daysDiff a.maturity b.maturity|) →
      (a :: grest).length < maxO →
      i ∈ pr ∨ b ∈ a :: grest ∨ (∃ g', g' ∈ pre ∧ b ∈ g') ∨
        b.recommendation ∈ StrategyGrouper.recs (a :: grest) ∨
        ("BET_YES" ∈ StrategyGrouper.recs (a :: grest) ∧
         "BET_NO" ∈ StrategyGrouper.recs (a :: grest)) := by
  intro rest
  induction rest with
  | nil =>
    intro pr pre post a grest i b _ heq _ _ _ _
    exfalso
    have : ([] : List (List StrategyGrouper.Opp)) =
        pre ++ (a :: grest) :: post := by
      rw [← heq]; rfl
    cases pre <;> simp at this
  | cons jc rest ih =>
    obtain ⟨j, c⟩ := jc
    intro pr pre post a grest i b hsub heq hib hasset hwin hcap
    have hsub' : ∀ x ∈ rest, x ∈ all :=
      fun x hx => hsub x (List.mem_cons_of_mem _ hx)
    simp only [StrategyGrouper.groupLoop] at heq
    by_cases h1 : j ∈ pr
    · rw [if_pos h1] at heq
      exact ih pr pre post a grest i b hsub' heq hib hasset hwin hcap
    · rw [if_neg h1] at heq
      obtain ⟨ext, hext⟩ := growGroup_append c.asset c.maturity maxO all
        [c] (j :: pr)
      have hglen : 1 ≤ (StrategyGrouper.growGroup c.asset c.maturity maxO
          all [c] (j :: pr)).1.length := by
        rw [hext]; simp
      rw [if_pos hglen] at heq
      cases pre with
      | nil =>
        simp only [List.nil_append] at heq
        rw [List.cons.injEq] at heq
        obtain ⟨hgroup, _⟩ := heq
        have hca : c = a := by
          rw [hgroup, List.singleton_append, List.cons.injEq] at hext
          exact hext.1.symm
        have hcomp := growGroup_complete c.asset c.maturity maxO all [c]
          (j :: pr) i b hnd hib (by rw [hca]; exact hasset)
          (by rw [hca]; exact hwin) (by rw [hgroup]; exact hcap)
        rcases hcomp with h | h | h | h
        · rcases List.mem_cons.mp h with h' | h'
          · have hjc : (j, c) ∈ all := hsub _ (List.mem_cons_self _ _)
            have : b = c := fst_nodup_mem_inj all hnd i b c hib
              (by rw [h']; exact hjc)
            refine Or.inr (Or.inl ?_)
            rw [this, hca]
            exact List.mem_cons_self _ _
          · exact Or.inl h'
        · exact Or.inr (Or.inl (by rw [← hgroup]; exact h))
        · exact Or.inr (Or.inr (Or.inr (Or.inl (by rw [← hgroup]; exact h))))
        · exact Or.inr (Or.inr (Or.inr (Or.inr (by rw [← hgroup]; exact h))))
      | cons g₁ pre' =>
        simp only [List.cons_append] at heq
        rw [List.cons.injEq] at heq
        obtain ⟨hg₁, htail⟩ := heq
        have hres := ih _ pre' post a grest i b hsub' htail hib hasset
          hwin hcap
        rcases hres with h | h | h | h | h
        · rcases growGroup_processed_new c.asset c.maturity maxO all [c]
            (j :: pr) i h with h' | ⟨b', hb'1, hb'2⟩
          · rcases List.mem_cons.mp h' with h'' | h''
            · have hjc : (j, c) ∈ all := hsub _ (List.mem_cons_self _ _)
              have hbc : b = c := fst_nodup_mem_inj all hnd i b c hib
                (by rw [h'']; exact hjc)
              refine Or.inr (Or.inr (Or.inl ⟨g₁, List.mem_cons_self _ _, ?_⟩))
              rw [hbc, ← hg₁, hext]
              exact List.mem_append_left _ (List.mem_singleton_self _)
            · exact Or.inl h''
          · have hbb' : b = b' := fst_nodup_mem_inj all hnd i b b' hib hb'1
            refine Or.inr (Or.inr (Or.inl ⟨g₁, List.mem_cons_self _ _, ?_⟩))
            rw [hbb', ← hg₁]
            exact hb'2
        · exact Or.inr (Or.inl h)
        · obtain ⟨g', hg', hb⟩ := h
          exact Or.inr (Or.inr (Or.inl ⟨g', List.mem_cons_of_mem _ hg', hb⟩))
        · exact Or.inr (Or.inr (Or.inr (Or.inl h)))
        · exact Or.inr (Or.inr (Or.inr (Or.inr h)))

/-- Claim C9: every group returned by `group_opportunities` contains at
most one opportunity per distinct recommendation value (in particular at
most one `BET_YES` and at most one `BET_NO` member): a candidate is added
only when its recommendation is not already represented. -/
theorem group_at_most_one_per_recommendation :
    ∀ (minO maxO : ℕ) (opps : List StrategyGrouper.Opp)
      (g : List StrategyGrouper.Opp),
      g ∈ StrategyGrouper.group_opportunities minO maxO opps →
      ∀ r : String,
        (g.filter (fun o => o.recommendation == r)).length ≤ 1 := by
  intro minO maxO opps g hg r
  have hnd : (StrategyGrouper.recs g).Nodup :=
    groupLoop_nodup _ minO maxO _ [] g hg
  have hcount : (StrategyGrouper.recs g).count r ≤ 1 :=
    List.nodup_iff_count_le_one.mp hnd r
  calc (g.filter (fun o => o.recommendation == r)).length
      = g.countP (fun o => o.recommendation == r) :=
        (List.countP_eq_length_filter _ _).symm
    _ = (StrategyGrouper.recs g).count r := by
        rw [List.count_eq_countP, StrategyGrouper.recs, List.countP_map]
        rfl
    _ ≤ 1 := hcount

/-- Claim C9 witness: a singleton input yields the single group `[o]`,
which holds at most one `BET_YES` member. -/
theorem group_at_most_one_per_recommendation_witness :
    ((([⟨"BTC", 0, "BET_YES"⟩] : List StrategyGrouper.Opp).filter
      (fun o => o.recommendation == "BET_YES")).length ≤ 1) :=
  group_at_most_one_per_recommendation 1 4 [⟨"BTC", 0, "BET_YES"⟩]
    [⟨"BTC", 0, "BET_YES"⟩] (by decide) "BET_YES"

/-- Claim C2, counterexample: two same-asset opportunities with identical
maturities but the same side (`BET_YES`) are split into two singleton
groups although neither group has reached the size cap of 4. -/
theorem group_split_below_cap_counterexample :
    StrategyGrouper.group_opportunities 1 4
        [⟨"BTC", 0, "BET_YES"⟩, ⟨"BTC", 0, "BET_YES"⟩] =
      [[⟨"BTC", 0, "BET_YES"⟩], [⟨"BTC", 0, "BET_YES"⟩]] ∧
    StrategyGrouper.daysDiff 0 0 = 0 ∧
    ([(⟨"BTC", 0, "BET_YES"⟩ : StrategyGrouper.Opp)]).length < 4 := by
  refine ⟨by decide, by decide, by decide⟩

/-- Claim C2 (amended): `group_opportunities` never places two
different-asset opportunities in the same group; and (with the scanner's
configuration, minimum 1 / cap 4) an opportunity with the same asset as a
returned group's seed and a maturity within the 1-day window can be left
out of that group, while the group is below the size cap, only by being
placed in an earlier group or by the mixed-side rules: its recommendation
is already represented in the group, or the group already holds both a
`BET_YES` and a `BET_NO`. -/
theorem grouping_same_asset_and_no_split :
    (∀ (minO maxO : ℕ) (opps : List StrategyGrouper.Opp)
       (g : List StrategyGrouper.Opp),
      g ∈ StrategyGrouper.group_opportunities minO maxO opps →
      ∀ x ∈ g, ∀ y ∈ g, x.asset = y.asset) ∧
    (∀ (opps : List StrategyGrouper.Opp)
       (pre post : List (List StrategyGrouper.Opp))
       (a : StrategyGrouper.Opp) (grest : List StrategyGrouper.Opp)
       (b : StrategyGrouper.Opp),
      StrategyGrouper.group_opportunities 1 4 opps =
        pre ++ (a :: grest) :: post →
      b ∈ opps →
      b.asset = a.asset →
      |StrategyGrouper.daysDiff a.maturity b.maturity| ≤ 1 →
      (a :: grest).length < 4 →
      b ∈ a :: grest ∨ (∃ g', g' ∈ pre ∧ b ∈ g') ∨
        b.recommendation ∈ StrategyGrouper.recs (a :: grest) ∨
        ("BET_YES" ∈ StrategyGrouper.recs (a :: grest) ∧
         "BET_NO" ∈ StrategyGrouper.recs (a :: grest))) := by
  constructor
  · intro minO maxO opps g hg x hx y hy
    exact groupLoop_asset _ minO maxO _ [] g hg x hx y hy
  · intro opps pre post a grest b heq hb hasset hwin hcap
    obtain ⟨i, hi⟩ := indexList_mem opps 0 b hb
    have hnd := indexList_fst_nodup opps 0
    have hres := groupLoop_split (StrategyGrouper.indexList 0 opps) 4 hnd
      (StrategyGrouper.indexList 0 opps) [] pre post a grest i b
      (fun x hx => hx) heq hi hasset (not_lt.mpr hwin) hcap
    rcases hres with h | h | h | h | h
    · exact absurd h (List.not_mem_nil _)
    · exact Or.inl h
    · exact Or.inr (Or.inl h)
    · exact Or.inr (Or.inr (Or.inl h))
    · exact Or.inr (Or.inr (Or.inr h))

/-- Claim C2 witness: with one `BET_YES` and one `BET_NO` opportunity on
the same asset and maturity, the grouper forms the single mixed group, and
the amended statement instantiates to the second opportunity being in that
group. -/
theorem grouping_same_asset_and_no_split_witness :
    (⟨"BTC", 0, "BET_NO"⟩ : StrategyGrouper.Opp) ∈
        [(⟨"BTC", 0, "BET_YES"⟩ : StrategyGrouper.Opp),
         ⟨"BTC", 0, "BET_NO"⟩] ∨
      (∃ g', g' ∈ ([] : List (List StrategyGrouper.Opp)) ∧
        (⟨"BTC", 0, "BET_NO"⟩ : StrategyGrouper.Opp) ∈ g') ∨
      "BET_NO" ∈ StrategyGrouper.recs
        [⟨"BTC", 0, "BET_YES"⟩, ⟨"BTC", 0, "BET_NO"⟩] ∨
      ("BET_YES" ∈ StrategyGrouper.recs
          [⟨"BTC", 0, "BET_YES"⟩, ⟨"BTC", 0, "BET_NO"⟩] ∧
       "BET_NO" ∈ StrategyGrouper.recs
          [⟨"BTC", 0, "BET_YES"⟩, ⟨"BTC", 0, "BET_NO"⟩]) :=
  grouping_same_asset_and_no_split.2
    [⟨"BTC", 0, "BET_YES"⟩, ⟨"BTC", 0, "BET_NO"⟩] [] []
    ⟨"BTC", 0, "BET_YES"⟩ [⟨"BTC", 0, "BET_NO"⟩] ⟨"BTC", 0, "BET_NO"⟩
    (by decide) (by decide) (by decide) (by decide) (by decide)
